import Mathlib

/-!
Shallow embedding of the eegan signal-analysis engine (band power, sliding-window
power-over-time, spike detection, all-bands normalization, DFA) in exact rational
arithmetic, with theorems settling the frozen claims about it.

Sources embedded:
* `src/gui/analysis/band_spikes.py` — `detect_spikes` (threshold + coalescing)
* `src/gui/analysis/all_bands_power.py` — `update_plot` normalization
* `src/eeg/analysis/power_analyzer.py` — `calculate_band_power`,
  `calculate_relative_power`, `calculate_power_over_time`
* `src/eeg/analyzer.py` / `src/gui/analysis_panel.py` — sliding-window times
* `src/gui/analysis/dfa_analysis.py` — `calculate_dfa_direct`

Library numerics (numpy/scipy) are modelled by their mathematical definitions in
exact arithmetic; where the source compares against `np.std` (a square root), the
comparison is encoded square-free and proved equivalent to the √-form.
-/

namespace Eegan

/-- `np.mean`: arithmetic mean. For the empty list this yields `0` (ℚ-division by
zero); every use in the source is guarded by a non-emptiness check. -/
def mean (l : List ℚ) : ℚ := l.sum / l.length

/-- `np.cumsum`: the list of running sums (the `i`-th entry sums the first `i+1`
elements). -/
def cumsum (l : List ℚ) : List ℚ :=
  (List.range l.length).map (fun i => (l.take (i + 1)).sum)

/-- Population variance of a list: the square of `np.std` (numpy's default
`ddof = 0`), i.e. the mean of the squared deviations from the mean. -/
def variancePop (l : List ℚ) : ℚ := mean (l.map (fun x => (x - mean l) ^ 2))

/-- `np.linspace a b n`: `n` evenly spaced samples from `a` to `b` inclusive;
`[a]` when `n = 1`, `[]` when `n = 0`. -/
def linspace (a b : ℚ) (n : ℕ) : List ℚ :=
  if n ≤ 1 then List.replicate n a
  else (List.range n).map (fun i : ℕ => a + (b - a) * (i : ℚ) / ((n : ℚ) - 1))

/-! ## Spike detection (`src/gui/analysis/band_spikes.py`, `detect_spikes`, lines 132–153)

The source computes `threshold = mean + threshold_multiplier * std` with
`std = np.std(power_data)` and keeps the samples with `power_data > threshold`
(strict), then greedily groups the selected times: the first spike of a run is
kept as `current_spike`, and a later spike starts a new run exactly when it is
more than 0.5 s after `current_spike`. -/
/-- The source's spike test `p > μ + σ·√v` (`v` = `np.std(...)²`, the population
variance) encoded without square roots, so that it is executable over ℚ:
for `0 ≤ σ` it is `μ < p ∧ σ²·v < (p-μ)²`, and for `σ < 0` it is
`μ < p ∨ (μ-p)² < σ²·v`. `exceedsThreshold_iff_sqrt` proves the encoding equal
to the √-form whenever `0 ≤ v`. -/
def exceedsThreshold (μ σ v p : ℚ) : Bool :=
  if 0 ≤ σ then decide (μ < p) && decide (σ ^ 2 * v < (p - μ) ^ 2)
  else decide (μ < p) || decide ((μ - p) ^ 2 < σ ^ 2 * v)

/-- One pass of the source's grouping loop (lines 147–153): `current` holds the
first spike time of the run being built; a later time more than `sep` seconds
after `current` emits `current` and starts a new run. -/
def coalesceAux (sep current : ℚ) : List ℚ → List ℚ
  | [] => [current]
  | t :: ts =>
    if sep < t - current then current :: coalesceAux sep t ts
    else coalesceAux sep current ts

/-- The coalescing step of spike detection. The source hardcodes `sep = 0.5`
(`if spike_time - current_spike > 0.5`); the separation is kept as a parameter
because the claims quantify over it. An empty spike list produces no events. -/
def coalesce (sep : ℚ) : List ℚ → List ℚ
  | [] => []
  | t :: ts => coalesceAux sep t ts

/-- `detect_spikes` (lines 132–153): threshold the power series at
`mean + σ·std`, map the selected indices to times on the display time vector
`np.linspace(0, duration, len(power_data))`, and coalesce runs closer than
0.5 s. An empty power series yields no events (the source leaves its event
state untouched in that case). -/
def detect_spikes (power : List ℚ) (σ duration : ℚ) : List ℚ :=
  if power.isEmpty then []
  else coalesce (1/2)
    ((((linspace 0 duration power.length).zip power).filter
      (fun tp => exceedsThreshold (mean power) σ (variancePop power) tp.2)).map Prod.fst)

/-! ## Band power (`src/eeg/analysis/power_analyzer.py`)

`calculate_band_power` (lines 17–49) runs `signal.welch` and integrates the PSD
over the bins selected by `freq_mask = (freqs >= low_freq) & (freqs <= high_freq)`
with `np.trapz(psd[freq_mask], freqs[freq_mask])`. Welch's method itself is scipy
library code (FFT-based), not repository code: it is modelled as an arbitrary
list of `(frequency, psd)` pairs, and the facts scipy guarantees about its
output — frequencies ascending, PSD values non-negative — appear as hypotheses.
`calculate_relative_power` (lines 55–84) reruns `signal.welch` with identical
parameters (`nperseg = min(len(data), 512)`), so the band and the total power
integrate the same deterministic `(freqs, psd)` estimate. The band interval is
obtained from `FrequencyBands.get_band_info` and is kept here as an explicit
`(low, high)` pair. -/
/-- `np.trapz(psd[mask], freqs[mask])` over a list of `(freq, psd)` pairs:
the sum of `(f₂ - f₁)·(p₁ + p₂)/2` over consecutive retained bins. -/
def trapz : List (ℚ × ℚ) → ℚ
  | [] => 0
  | [_] => 0
  | a :: b :: rest => (b.1 - a.1) * (a.2 + b.2) / 2 + trapz (b :: rest)

/-- The source's band mask (line 44):
`freq_mask = (freqs >= low_freq) & (freqs <= high_freq)` — a closed interval. -/
def bandMask (low high : ℚ) (fp : List (ℚ × ℚ)) : List (ℚ × ℚ) :=
  fp.filter (fun p => decide (low ≤ p.1) && decide (p.1 ≤ high))

/-- `calculate_band_power` as a function of the Welch estimate `fp`. -/
def calculate_band_power (low high : ℚ) (fp : List (ℚ × ℚ)) : ℚ :=
  trapz (bandMask low high fp)

/-- Modelled from the spec's words: band power over the half-open interval
`[low_hz, high_hz)` ("a named half-open interval [low_hz, high_hz)"), for
comparison with the source's closed-interval mask. -/
def band_power_spec (low high : ℚ) (fp : List (ℚ × ℚ)) : ℚ :=
  trapz (fp.filter (fun p => decide (low ≤ p.1) && decide (p.1 < high)))

/-- `calculate_relative_power` (lines 55–84): the ratio of band power to the
power over `total_range`, with the `if total_power > 0 ... else 0.0` guard. -/
def calculate_relative_power (low high tlow thigh : ℚ) (fp : List (ℚ × ℚ)) : ℚ :=
  if 0 < trapz (bandMask tlow thigh fp) then
    calculate_band_power low high fp / trapz (bandMask tlow thigh fp)
  else 0

/-! ## Sliding windows (`calculate_power_over_time`, power_analyzer.py lines 86–118)

The loop is `for start in range(0, n_samples - window_samples + 1, step_samples)`.
Python's `range(0, m, s)` with `s ≥ 1` enumerates `0, s, 2s, …` strictly below
`m`; for `m = n - w + 1 ≥ 1` that is `⌊(n - w)/s⌋ + 1` starts, and none when
`m ≤ 0` (signal shorter than the window). With `step_samples = 0`, `range`
raises `ValueError`, which the source's `except` handler converts into the
empty result `np.array([])`. -/
/-- The window start indices produced by the source's `range` loop (including
the `ValueError → except → empty` path for a zero step). -/
def windowStarts (n w step : ℕ) : List ℕ :=
  if step = 0 ∨ n < w then []
  else (List.range ((n - w) / step + 1)).map (· * step)

/-- `calculate_power_over_time`: the band power of each full window
`data[start : start + window_samples]`. The per-window
`calculate_band_power(window_data, sfreq, band_name)` call (a Welch estimate
of the window followed by the closed-mask trapezoid) is abstracted as `bp`. -/
def calculate_power_over_time (data : List ℚ) (w step : ℕ)
    (bp : List ℚ → ℚ) : List ℚ :=
  (windowStarts data.length w step).map (fun st => bp ((data.drop st).take w))

/-! ## Reported window times (`calculate_alpha_power_sliding`, analyzer.py
lines 26–79; `analysis_panel.calculate_band_power`, analysis_panel.py lines
207–252)

Both loops run `for start_idx in range(0, len(signal) - window_samples + 1,
step_samples)` and report `times[start_idx + window_samples // 2]` for each
window, where `times` is the loader's absolute recording time vector
(`times[i] = i / sfreq`, starting at 0; both functions always fetch the full
recording, so no `start_time` offset arises in them). `step_samples` is
`window_samples - overlap_samples` in the sources; it is kept abstract here. -/
/-- The reported time stamps `times[start_idx + window_samples // 2]`
(analyzer.py line 77, analysis_panel.py line 250); `//` is floor division. -/
def reportedWindowTimes (n w step : ℕ) (sfreq : ℚ) : List ℚ :=
  (windowStarts n w step).map (fun st => ((st + w / 2 : ℕ) : ℚ) / sfreq)

/-- Modelled from the spec's words: "the reported time for each window is its
midpoint, expressed in absolute recording time" — window `k` starts at sample
`k·step` and spans `window_samples` samples, so its midpoint is its start time
plus half the window duration. -/
def windowMidpoint (w step : ℕ) (sfreq : ℚ) (k : ℕ) : ℚ :=
  ((k * step : ℕ) : ℚ) / sfreq + (w : ℚ) / (2 * sfreq)

/-! ## All-bands normalization (`all_bands_power.py`, `update_plot`,
lines 184–193)

For each band series the source computes `min_power = np.min(power_data)`,
`max_power = np.max(power_data)` and, when `max_power > min_power`, rescales to
`(power_data - min_power) / (max_power - min_power)`; otherwise it keeps the
raw values. The surrounding `len(power_data) > 0` check guards emptiness. -/
/-- `np.min` of a list (`0` for the empty list, which the source excludes). -/
def listMin : List ℚ → ℚ
  | [] => 0
  | x :: xs => xs.foldl min x

/-- `np.max` of a list (`0` for the empty list, which the source excludes). -/
def listMax : List ℚ → ℚ
  | [] => 0
  | x :: xs => xs.foldl max x

/-- Lines 184–193: min-max normalization with the constant-series guard. -/
def normalize_series (l : List ℚ) : List ℚ :=
  if listMin l < listMax l then
    l.map (fun x => (x - listMin l) / (listMax l - listMin l))
  else l

/-! ## DFA (`src/gui/analysis/dfa_analysis.py`, `calculate_dfa_direct`,
lines 344–403)

The estimator integrates the mean-centred signal, generates
`np.logspace(np.log10(min_scale), np.log10(max_scale), n_scales).astype(int)`
scales, computes per-scale detrended fluctuations, filters out the
non-positive ones, and fits the log-log slope only when `len(scales) > 2`,
taking `alpha = np.nan` otherwise. It performs no parameter validation.

Scale generation is modelled in exact real arithmetic: the `i`-th logspace
value is `10^(((n-1-i)·log₁₀ s₀ + i·log₁₀ s₁)/(n-1)) =
(s₀^(n-1-i) · s₁^i)^(1/(n-1))`, and `astype(int)` truncates (= floor on
non-negative values), i.e. `natFloorRoot (n-1) (s₀^(n-1-i) · s₁^i)`. (float64
rounding of `10**log10` can perturb a scale by one for some inputs; the claims
settled here do not hinge on that.) The fitted slope itself is an irrational
number (a regression on base-10 logarithms), so the embedding records the
retained scales, their squared fluctuations, and whether the source takes the
`alpha = np.nan` branch — which is all the claims refer to. A fluctuation
`sqrt(q)` is positive iff `q` is, so the `fluctuations > 0` filter is
expressed on the squares. -/
/-- `⌊m^(1/k)⌋`: the largest `t ≤ m` with `t^k ≤ m`. -/
def natFloorRoot (k m : ℕ) : ℕ := Nat.findGreatest (fun t => t ^ k ≤ m) m

/-- The integer scale list `np.logspace(log10 s₀, log10 s₁, n).astype(int)` in
exact arithmetic (`[s₀]` for `n = 1` and `[]` for `n = 0`, as `np.linspace`). -/
def genScales (s0 s1 n : ℕ) : List ℕ :=
  if n ≤ 1 then List.replicate n s0
  else (List.range n).map (fun i => natFloorRoot (n - 1) (s0 ^ (n - 1 - i) * s1 ^ i))

/-- Lines 348–349: `integrated = np.cumsum(data - np.mean(data))`. -/
def integrate (data : List ℚ) : List ℚ :=
  cumsum (data.map (fun x => x - mean data))

/-- The slope of the least-squares line `np.polyfit(t, segment, 1)` over
`t = 0, 1, …, len-1`, by the exact normal equations (ℚ-division by zero gives 0
on degenerate length-≤-1 segments, where numpy's residual is likewise 0). -/
def lsSlope (seg : List ℚ) : ℚ :=
  ((seg.length : ℚ) *
      (((List.range seg.length).zip seg).map (fun p => (p.1 : ℚ) * p.2)).sum -
    ((List.range seg.length).map (fun i : ℕ => (i : ℚ))).sum * seg.sum) /
  ((seg.length : ℚ) * ((List.range seg.length).map (fun i : ℕ => (i : ℚ) ^ 2)).sum -
    ((List.range seg.length).map (fun i : ℕ => (i : ℚ))).sum ^ 2)

/-- The intercept of the same least-squares line. -/
def lsIntercept (seg : List ℚ) : ℚ :=
  (seg.sum - lsSlope seg * ((List.range seg.length).map (fun i : ℕ => (i : ℚ))).sum) /
    (seg.length : ℚ)

/-- Lines 375–381: `np.sum((segment - trend) ** 2)` where
`trend = np.polyval(np.polyfit(t, segment, 1), t)`. -/
def lsResid (seg : List ℚ) : ℚ :=
  (((List.range seg.length).zip seg).map (fun p =>
    (p.2 - (lsSlope seg * (p.1 : ℚ) + lsIntercept seg)) ^ 2)).sum

/-- One scale's `fluctuations[i]²` (lines 360–384): split the integrated
profile into `n_segments = len // scale` contiguous segments, sum the
per-segment squared residuals, divide by `n_segments * scale`; the slot keeps
its `np.zeros` value 0 when `n_segments < 1` (`continue`). The source stores
`np.sqrt` of this value; the square is tracked instead. -/
def flucSquared (integrated : List ℚ) (s : ℕ) : ℚ :=
  if integrated.length / s < 1 then 0
  else (((List.range (integrated.length / s)).map
      (fun j => lsResid ((integrated.drop (j * s)).take s))).sum) /
    (((integrated.length / s : ℕ) : ℚ) * (s : ℚ))

/-- The DFA result as the claims see it: the retained scales, their squared
fluctuations, and whether the `alpha = np.nan` branch was taken (the fit
requires `len(scales) > 2`, lines 392–401). -/
structure DFAResult where
  scales : List ℕ
  flucSq : List ℚ
  alphaIsNaN : Bool

/-- `calculate_dfa_direct` (lines 344–403): unconditionally integrate,
generate scales, compute fluctuations, keep the pairs with positive
fluctuation, and fit only when more than two pairs remain. -/
def calculate_dfa_direct (data : List ℚ) (minScale maxScale nScales : ℕ) :
    DFAResult :=
  { scales := (((genScales minScale maxScale nScales).map
      (fun s => (s, flucSquared (integrate data) s))).filter
        (fun p => decide (0 < p.2))).map Prod.fst
    flucSq := (((genScales minScale maxScale nScales).map
      (fun s => (s, flucSquared (integrate data) s))).filter
        (fun p => decide (0 < p.2))).map Prod.snd
    alphaIsNaN := ! decide (2 <
      ((((genScales minScale maxScale nScales).map
        (fun s => (s, flucSquared (integrate data) s))).filter
          (fun p => decide (0 < p.2)))).length) }

/-- A 20-sample alternating test signal (0, 1, 0, 1, …). -/
def dfaData : List ℚ :=
  [0, 1, 0, 1, 0, 1, 0, 1, 0, 1, 0, 1, 0, 1, 0, 1, 0, 1, 0, 1]

/-! ### Coalescing lemmas -/
theorem coalesceAux_eq_cons (sep a : ℚ) (l : List ℚ) :
    ∃ r, coalesceAux sep a l = a :: r := by
  induction l generalizing a with
  | nil => exact ⟨[], rfl⟩
  | cons t ts ih =>
    by_cases h : sep < t - a
    · exact ⟨coalesceAux sep t ts, by simp [coalesceAux, h]⟩
    · obtain ⟨r, hr⟩ := ih a
      exact ⟨r, by simp [coalesceAux, h, hr]⟩

theorem coalesceAux_length_pos (sep a : ℚ) (l : List ℚ) :
    1 ≤ (coalesceAux sep a l).length := by
  obtain ⟨r, hr⟩ := coalesceAux_eq_cons sep a l
  simp [hr]

theorem coalesceAux_sublist (sep a : ℚ) (l : List ℚ) :
    List.Sublist (coalesceAux sep a l) (a :: l) := by
  induction l generalizing a with
  | nil => simp [coalesceAux]
  | cons t ts ih =>
    by_cases h : sep < t - a
    · simpa [coalesceAux, h] using (ih t).cons_cons a
    · simpa [coalesceAux, h] using
        ((ih a).trans ((List.sublist_cons_self t ts).cons_cons a))

theorem coalesceAux_pairwise_gap (sep a : ℚ) (l : List ℚ)
    (hs : List.Pairwise (· ≤ ·) (a :: l)) :
    List.Pairwise (fun x y => x + sep < y) (coalesceAux sep a l) := by
  induction l generalizing a with
  | nil => simp [coalesceAux]
  | cons t ts ih =>
    rw [List.pairwise_cons] at hs
    by_cases h : sep < t - a
    · have htail : List.Pairwise (· ≤ ·) (t :: ts) := hs.2
      have hmem : ∀ b ∈ coalesceAux sep t ts, a + sep < b := by
        intro b hb
        have hb' : b ∈ t :: ts := (coalesceAux_sublist sep t ts).mem hb
        rcases List.mem_cons.1 hb' with rfl | hb''
        · linarith
        · have : t ≤ b := (List.pairwise_cons.1 htail).1 b hb''
          linarith
      rw [coalesceAux, if_pos h]
      exact List.pairwise_cons.2 ⟨hmem, ih t htail⟩
    · have hs' : List.Pairwise (· ≤ ·) (a :: ts) := by
        rw [List.pairwise_cons]
        exact ⟨fun b hb => hs.1 b (List.mem_cons_of_mem t hb),
          (List.pairwise_cons.1 hs.2).2⟩
      simpa [coalesceAux, h] using ih a hs'

theorem coalesceAux_of_chain (sep a : ℚ) (l : List ℚ)
    (hc : List.Chain (fun x y => x + sep < y) a l) :
    coalesceAux sep a l = a :: l := by
  induction l generalizing a with
  | nil => rfl
  | cons t ts ih =>
    rcases List.chain_cons.1 hc with ⟨hat, htail⟩
    have h : sep < t - a := by linarith
    simp [coalesceAux, h, ih t htail]

/-- Core counting lemma: on sorted inputs, a sublist of the spike times never
coalesces to more events, whatever the anchors, provided the sublist's anchor is
not earlier. Induction on the combined length. -/
theorem coalesceAux_length_mono (sep : ℚ) (N : ℕ) :
    ∀ S S' a a', S.length + S'.length ≤ N → List.Sublist S' S →
      List.Pairwise (· ≤ ·) (a :: S) → List.Pairwise (· ≤ ·) (a' :: S') → a ≤ a' →
      (coalesceAux sep a' S').length ≤ (coalesceAux sep a S).length := by
  induction N with
  | zero =>
    intro S S' a a' hlen _ _ _ _
    have hS0 : S = [] := List.eq_nil_of_length_eq_zero (by omega)
    have hS'0 : S' = [] := List.eq_nil_of_length_eq_zero (by omega)
    subst hS0; subst hS'0
    simp [coalesceAux]
  | succ N ih =>
    intro S S' a a' hlen hsub hS hS' haa
    cases S' with
    | nil =>
      simpa [coalesceAux] using coalesceAux_length_pos sep a S
    | cons t1 tl =>
      cases S with
      | nil => simp at hsub
      | cons t ts =>
        have hat : a ≤ t := (List.pairwise_cons.1 hS).1 t (by simp)
        have htts : List.Pairwise (· ≤ ·) (t :: ts) := (List.pairwise_cons.1 hS).2
        have ha't1 : a' ≤ t1 := (List.pairwise_cons.1 hS').1 t1 (by simp)
        have ht1tl : List.Pairwise (· ≤ ·) (t1 :: tl) := (List.pairwise_cons.1 hS').2
        have hAts : List.Pairwise (· ≤ ·) (a :: ts) :=
          List.Pairwise.sublist ((List.sublist_cons_self t ts).cons₂ a) hS
        have hA'tl : List.Pairwise (· ≤ ·) (a' :: tl) :=
          List.Pairwise.sublist ((List.sublist_cons_self t1 tl).cons₂ a') hS'
        cases hsub with
        | cons x h =>
          -- t is skipped: t1 :: tl <+ ts
          have htl_ts : List.Sublist tl ts := (List.sublist_cons_self t1 tl).trans h
          have ht_t1 : t ≤ t1 :=
            (List.pairwise_cons.1 htts).1 t1 (h.mem (by simp))
          by_cases hb : sep < t - a
          · by_cases hb' : sep < t1 - a'
            · simp only [coalesceAux]
              rw [if_pos hb, if_pos hb']
              simp only [List.length_cons, Nat.add_le_add_iff_right]
              exact ih ts tl t t1 (by simp at hlen; omega) htl_ts htts ht1tl ht_t1
            · have hL : coalesceAux sep a' (t1 :: tl) = coalesceAux sep a' tl := by
                rw [coalesceAux, if_neg hb']
              rw [hL]
              exact ih (t :: ts) tl a a' (by simp at hlen ⊢; omega)
                (htl_ts.trans (List.sublist_cons_self t ts)) hS hA'tl haa
          · have hR : coalesceAux sep a (t :: ts) = coalesceAux sep a ts := by
              rw [coalesceAux, if_neg hb]
            rw [hR]
            exact ih ts (t1 :: tl) a a' (by simp at hlen ⊢; omega) h hAts hS' haa
        | cons₂ x h =>
          -- heads match: the shared head is t1, tl <+ ts
          by_cases hb : sep < t1 - a
          · by_cases hb' : sep < t1 - a'
            · simp only [coalesceAux]
              rw [if_pos hb, if_pos hb']
              simp only [List.length_cons, Nat.add_le_add_iff_right]
              exact ih ts tl t1 t1 (by simp at hlen; omega) h htts ht1tl le_rfl
            · have hL : coalesceAux sep a' (t1 :: tl) = coalesceAux sep a' tl := by
                rw [coalesceAux, if_neg hb']
              rw [hL]
              exact ih (t1 :: ts) tl a a' (by simp at hlen ⊢; omega)
                (h.trans (List.sublist_cons_self t1 ts)) hS hA'tl haa
          · have hb' : ¬ sep < t1 - a' := fun hc => hb (by linarith)
            have hR : coalesceAux sep a (t1 :: ts) = coalesceAux sep a ts := by
              rw [coalesceAux, if_neg hb]
            have hL : coalesceAux sep a' (t1 :: tl) = coalesceAux sep a' tl := by
              rw [coalesceAux, if_neg hb']
            rw [hR, hL]
            exact ih ts tl a a' (by simp at hlen; omega) h hAts hA'tl haa

/-- Count monotonicity for the full coalescing step on sorted spike lists. -/
theorem coalesce_length_mono (sep : ℚ) (S S' : List ℚ)
    (hsub : List.Sublist S' S) (hS : List.Pairwise (· ≤ ·) S) :
    (coalesce sep S').length ≤ (coalesce sep S).length := by
  cases S' with
  | nil => simp [coalesce]
  | cons b tl' =>
    cases S with
    | nil => simp at hsub
    | cons aa ts =>
      have hb_mem : b ∈ aa :: ts := hsub.mem (by simp)
      have hab : aa ≤ b := by
        rcases List.mem_cons.1 hb_mem with rfl | hmem
        · exact le_rfl
        · exact (List.pairwise_cons.1 hS).1 b hmem
      have htl' : List.Sublist tl' ts := by
        cases hsub with
        | cons x h => exact (List.sublist_cons_self b tl').trans h
        | cons₂ x h => exact h
      have hS' : List.Pairwise (· ≤ ·) (b :: tl') := List.Pairwise.sublist hsub hS
      exact coalesceAux_length_mono sep (ts.length + tl'.length) ts tl' aa b le_rfl
        htl' hS hS' hab

/-! ### Threshold and sortedness lemmas -/
/-- The square-free encoding agrees with the source's `p > μ + σ·√v`. -/
theorem exceedsThreshold_iff_sqrt (μ σ v p : ℚ) (hv : 0 ≤ v) :
    exceedsThreshold μ σ v p = true ↔
      (μ : ℝ) + (σ : ℝ) * Real.sqrt (v : ℝ) < (p : ℝ) := by
  have hv' : (0 : ℝ) ≤ (v : ℝ) := by exact_mod_cast hv
  have hs : 0 ≤ Real.sqrt (v : ℝ) := Real.sqrt_nonneg _
  have hsq : Real.sqrt (v : ℝ) ^ 2 = (v : ℝ) := Real.sq_sqrt hv'
  unfold exceedsThreshold
  by_cases h1 : 0 ≤ σ
  · have h1' : (0 : ℝ) ≤ (σ : ℝ) := by exact_mod_cast h1
    simp only [if_pos h1, Bool.and_eq_true, decide_eq_true_eq]
    constructor
    · rintro ⟨hlt, hq⟩
      have hlt' : (μ : ℝ) < (p : ℝ) := by exact_mod_cast hlt
      have hq' : ((σ : ℝ) * Real.sqrt (v : ℝ)) ^ 2 < ((p : ℝ) - (μ : ℝ)) ^ 2 := by
        rw [mul_pow, hsq]
        exact_mod_cast hq
      have := lt_of_pow_lt_pow_left₀ 2 (by linarith) hq'
      linarith
    · intro hlt
      have hσs : 0 ≤ (σ : ℝ) * Real.sqrt (v : ℝ) := mul_nonneg h1' hs
      have hpm : (μ : ℝ) < (p : ℝ) := by linarith
      refine ⟨by exact_mod_cast hpm, ?_⟩
      have hq' : ((σ : ℝ) * Real.sqrt (v : ℝ)) ^ 2 < ((p : ℝ) - (μ : ℝ)) ^ 2 :=
        pow_lt_pow_left₀ (by linarith) hσs two_ne_zero
      rw [mul_pow, hsq] at hq'
      have : (σ : ℝ) ^ 2 * (v : ℝ) < ((p : ℝ) - (μ : ℝ)) ^ 2 := hq'
      exact_mod_cast this
  · have h1' : (σ : ℝ) < 0 := by exact_mod_cast not_le.1 h1
    simp only [if_neg h1, Bool.or_eq_true, decide_eq_true_eq]
    have hσs : (σ : ℝ) * Real.sqrt (v : ℝ) ≤ 0 :=
      mul_nonpos_of_nonpos_of_nonneg (le_of_lt h1') hs
    constructor
    · rintro (hlt | hq)
      · have : (μ : ℝ) < (p : ℝ) := by exact_mod_cast hlt
        linarith
      · have hq' : ((μ : ℝ) - (p : ℝ)) ^ 2 < (-((σ : ℝ) * Real.sqrt (v : ℝ))) ^ 2 := by
          rw [neg_sq, mul_pow, hsq]
          exact_mod_cast hq
        have := lt_of_pow_lt_pow_left₀ 2 (by linarith) hq'
        linarith
    · intro hlt
      by_cases hmp : (μ : ℝ) < (p : ℝ)
      · exact Or.inl (by exact_mod_cast hmp)
      · right
        have hge : (0 : ℝ) ≤ (μ : ℝ) - (p : ℝ) := by linarith
        have hq' : ((μ : ℝ) - (p : ℝ)) ^ 2 < (-((σ : ℝ) * Real.sqrt (v : ℝ))) ^ 2 :=
          pow_lt_pow_left₀ (by linarith) hge two_ne_zero
        rw [neg_sq, mul_pow, hsq] at hq'
        exact_mod_cast hq'

theorem variancePop_nonneg (l : List ℚ) : 0 ≤ variancePop l := by
  unfold variancePop mean
  apply div_nonneg
  · apply List.sum_nonneg
    intro x hx
    rw [List.mem_map] at hx
    obtain ⟨y, _, rfl⟩ := hx
    positivity
  · positivity

/-- Raising the threshold multiplier can only deselect samples. -/
theorem exceedsThreshold_anti (μ v p σ1 σ2 : ℚ) (hσ : σ1 ≤ σ2) (hv : 0 ≤ v)
    (h : exceedsThreshold μ σ2 v p = true) : exceedsThreshold μ σ1 v p = true := by
  unfold exceedsThreshold at h ⊢
  by_cases h1 : 0 ≤ σ1
  · have h2 : 0 ≤ σ2 := le_trans h1 hσ
    simp only [if_pos h1, if_pos h2, Bool.and_eq_true, decide_eq_true_eq] at h ⊢
    refine ⟨h.1, lt_of_le_of_lt ?_ h.2⟩
    have hsq12 : σ1 ^ 2 ≤ σ2 ^ 2 := by nlinarith
    exact mul_le_mul_of_nonneg_right hsq12 hv
  · by_cases h2 : 0 ≤ σ2
    · simp only [if_pos h2, Bool.and_eq_true, decide_eq_true_eq] at h
      simp only [if_neg h1, Bool.or_eq_true, decide_eq_true_eq]
      exact Or.inl h.1
    · simp only [if_neg h1, if_neg h2, Bool.or_eq_true, decide_eq_true_eq] at h ⊢
      rcases h with h | h
      · exact Or.inl h
      · have hσ2 : σ2 < 0 := not_le.1 h2
        right
        have hsq21 : σ2 ^ 2 ≤ σ1 ^ 2 := by nlinarith
        exact lt_of_lt_of_le h (mul_le_mul_of_nonneg_right hsq21 hv)

theorem filter_sublist_of_imp {α : Type} (l : List α) (p q : α → Bool)
    (h : ∀ x ∈ l, q x = true → p x = true) :
    List.Sublist (l.filter q) (l.filter p) := by
  induction l with
  | nil => simp
  | cons a t ih =>
    have iht := ih (fun x hx => h x (List.mem_cons_of_mem a hx))
    rw [List.filter_cons, List.filter_cons]
    by_cases hq : q a = true
    · have hp := h a (by simp) hq
      rw [if_pos hq, if_pos hp]
      exact iht.cons₂ a
    · rw [if_neg hq]
      by_cases hp : p a = true
      · rw [if_pos hp]
        exact iht.cons a
      · rw [if_neg hp]
        exact iht

theorem linspace_length (a b : ℚ) (n : ℕ) : (linspace a b n).length = n := by
  unfold linspace
  split
  · exact List.length_replicate n a
  · rw [List.length_map, List.length_range]

theorem linspace_sorted (a b : ℚ) (n : ℕ) (hab : a ≤ b) :
    List.Pairwise (· ≤ ·) (linspace a b n) := by
  unfold linspace
  split
  · rename_i h
    rcases Nat.le_one_iff_eq_zero_or_eq_one.1 h with rfl | rfl <;> simp
  · rename_i h
    have h2 : 2 ≤ n := by omega
    have hn : (0 : ℚ) < (n : ℚ) - 1 := by
      have : (2 : ℚ) ≤ (n : ℚ) := by exact_mod_cast h2
      linarith
    rw [List.pairwise_map]
    refine List.Pairwise.imp ?_ (List.pairwise_lt_range n)
    intro i j hij
    have hij' : (i : ℚ) ≤ (j : ℚ) := by exact_mod_cast le_of_lt hij
    have hba : (0 : ℚ) ≤ b - a := by linarith
    have h1 : (b - a) * (i : ℚ) ≤ (b - a) * (j : ℚ) :=
      mul_le_mul_of_nonneg_left hij' hba
    have key : (b - a) * (i : ℚ) / ((n : ℚ) - 1) ≤ (b - a) * (j : ℚ) / ((n : ℚ) - 1) := by
      gcongr
    linarith

/-- C4 core: the detected spike count is antitone in the threshold multiplier. -/
theorem detect_spikes_length_anti (power : List ℚ) (dur σ1 σ2 : ℚ)
    (hσ : σ1 ≤ σ2) (hdur : 0 ≤ dur) :
    (detect_spikes power σ2 dur).length ≤ (detect_spikes power σ1 dur).length := by
  unfold detect_spikes
  by_cases hp : power.isEmpty
  · simp [hp]
  · simp only [if_neg hp]
    set Z := (linspace 0 dur power.length).zip power with hZ
    have hsubZ : List.Sublist
        (Z.filter (fun tp => exceedsThreshold (mean power) σ2 (variancePop power) tp.2))
        (Z.filter (fun tp => exceedsThreshold (mean power) σ1 (variancePop power) tp.2)) :=
      filter_sublist_of_imp Z _ _ (fun x _ hx =>
        exceedsThreshold_anti (mean power) (variancePop power) x.2 σ1 σ2 hσ
          (variancePop_nonneg power) hx)
    have hsorted : List.Pairwise (· ≤ ·)
        ((Z.filter (fun tp =>
          exceedsThreshold (mean power) σ1 (variancePop power) tp.2)).map Prod.fst) := by
      have htimes : List.Pairwise (· ≤ ·) (linspace 0 dur power.length) :=
        linspace_sorted 0 dur power.length hdur
      have hsub2 : List.Sublist
          ((Z.filter (fun tp =>
            exceedsThreshold (mean power) σ1 (variancePop power) tp.2)).map Prod.fst)
          (Z.map Prod.fst) :=
        (List.filter_sublist Z).map Prod.fst
      have hfst : Z.map Prod.fst = linspace 0 dur power.length := by
        rw [hZ]
        apply List.map_fst_zip
        rw [linspace_length]
      rw [hfst] at hsub2
      exact List.Pairwise.sublist hsub2 htimes
    exact coalesce_length_mono (1/2) _ _ (hsubZ.map Prod.fst) hsorted

/-! ### Claim theorems: C4, C5, C10 -/
/-- C4: for every fixed power series (with its display time vector over a
non-negative duration), spike detection is monotone in the threshold
multiplier: raising `threshold_sigma` never increases the number of events
that survive the coalescing step. -/
theorem spike_count_antitone_in_threshold (power : List ℚ) (dur σ1 σ2 : ℚ)
    (hσ : σ1 ≤ σ2) (hdur : 0 ≤ dur) :
    (detect_spikes power σ2 dur).length ≤ (detect_spikes power σ1 dur).length :=
  detect_spikes_length_anti power dur σ1 σ2 hσ hdur

theorem spike_count_antitone_witness :
    (1 : ℚ) ≤ 2 ∧ (0 : ℚ) ≤ 2 ∧
      (detect_spikes [0, 10, 0] 2 2).length ≤ (detect_spikes [0, 10, 0] 1 2).length :=
  ⟨by norm_num, by norm_num,
    spike_count_antitone_in_threshold [0, 10, 0] 2 1 2 (by norm_num) (by norm_num)⟩

/-- C5 (amended): on a sorted spike-time list the coalescing step returns
events that pairwise differ by more than the separation, and it leaves
unchanged any list whose consecutive times already differ by strictly more
than the separation. (The claim's "at least `min_separation` apart" version is
false: the source's boundary test `spike_time - current_spike > 0.5` is
strict, so times exactly `0.5` apart are merged — see
`coalesce_merges_exact_separation`.) -/
theorem coalesce_separation_and_idempotence (sep : ℚ) (S : List ℚ)
    (hS : List.Pairwise (· ≤ ·) S) :
    List.Pairwise (fun x y => x + sep < y) (coalesce sep S) ∧
      (List.Chain' (fun x y => x + sep < y) S → coalesce sep S = S) := by
  constructor
  · cases S with
    | nil => simp [coalesce]
    | cons t ts => exact coalesceAux_pairwise_gap sep t ts hS
  · intro hc
    cases S with
    | nil => rfl
    | cons t ts => exact coalesceAux_of_chain sep t ts hc

theorem coalesce_separation_witness :
    List.Pairwise (· ≤ ·) [(0 : ℚ), 1] ∧
      (List.Pairwise (fun x y => x + 1/2 < y) (coalesce (1/2) [(0 : ℚ), 1]) ∧
        (List.Chain' (fun x y => x + 1/2 < y) [(0 : ℚ), 1] →
          coalesce (1/2) [(0 : ℚ), 1] = [0, 1])) :=
  ⟨by norm_num [List.pairwise_cons],
    coalesce_separation_and_idempotence (1/2) [0, 1]
      (by norm_num [List.pairwise_cons])⟩

/-- C5 counterexample: the spike times `0` and `1/2` lie exactly `0.5` s apart,
so they are "at least `min_separation_seconds` apart", yet the coalescing step
merges them (returning `[0]`) rather than returning the list unchanged: the
source's run-splitting test is strictly `> 0.5`. -/
theorem coalesce_merges_exact_separation :
    (1/2 : ℚ) - 0 ≥ 1/2 ∧ coalesce (1/2) [0, 1/2] = [0] ∧
      coalesce (1/2) [0, 1/2] ≠ [0, 1/2] := by
  refine ⟨by norm_num, ?_, ?_⟩
  · norm_num [coalesce, coalesceAux]
  · norm_num [coalesce, coalesceAux]

/-- C10: a constant, non-empty power series produces no spike events for any
`threshold_sigma ≥ 0`: the threshold equals the series mean and the comparison
is strict. -/
theorem flat_series_yields_no_spikes (c dur σ : ℚ) (n : ℕ)
    (hn : 1 ≤ n) (hσ : 0 ≤ σ) :
    detect_spikes (List.replicate n c) σ dur = [] := by
  unfold detect_spikes
  have hne : ¬ (List.replicate n c).isEmpty = true := by
    cases n with
    | zero => omega
    | succ m => simp [List.replicate_succ]
  rw [if_neg hne]
  have hn' : ((n : ℚ)) ≠ 0 := by
    have : 0 < n := hn
    exact_mod_cast Nat.pos_iff_ne_zero.1 this
  have hmean : mean (List.replicate n c) = c := by
    unfold mean
    rw [List.sum_replicate, List.length_replicate, nsmul_eq_mul]
    field_simp
  have hfilter :
      (((linspace 0 dur (List.replicate n c).length).zip (List.replicate n c)).filter
        (fun tp => exceedsThreshold (mean (List.replicate n c)) σ
          (variancePop (List.replicate n c)) tp.2)) = [] := by
    rw [List.filter_eq_nil_iff]
    intro tp htp
    have h2 : tp.2 = c := List.eq_of_mem_replicate (List.of_mem_zip htp).2
    rw [hmean, h2]
    unfold exceedsThreshold
    rw [if_pos hσ]
    simp
  rw [hfilter]
  simp [coalesce]

theorem flat_series_witness :
    1 ≤ 4 ∧ (0 : ℚ) ≤ 2 ∧ detect_spikes (List.replicate 4 (3 : ℚ)) 2 10 = [] :=
  ⟨by norm_num, by norm_num,
    flat_series_yields_no_spikes 3 10 2 4 (by norm_num) (by norm_num)⟩

/-! ### Trapezoid lemmas -/
theorem trapz_nonneg : ∀ l : List (ℚ × ℚ),
    List.Pairwise (fun p q : ℚ × ℚ => p.1 ≤ q.1) l → (∀ p ∈ l, 0 ≤ p.2) →
    0 ≤ trapz l := by
  intro l
  induction l with
  | nil => intro _ _; simp [trapz]
  | cons a t ih =>
    intro hs hn
    cases t with
    | nil => simp [trapz]
    | cons b rest =>
      rw [trapz]
      have hab : a.1 ≤ b.1 := (List.pairwise_cons.1 hs).1 b (by simp)
      have ha2 : 0 ≤ a.2 := hn a (by simp)
      have hb2 : 0 ≤ b.2 := hn b (by simp)
      have htail : 0 ≤ trapz (b :: rest) :=
        ih (List.pairwise_cons.1 hs).2 (fun p hp => hn p (List.mem_cons_of_mem a hp))
      have hterm : 0 ≤ (b.1 - a.1) * (a.2 + b.2) / 2 :=
        div_nonneg (mul_nonneg (by linarith) (by linarith)) (by norm_num)
      linarith

theorem trapz_cons_le (a : ℚ × ℚ) (l : List (ℚ × ℚ))
    (hs : List.Pairwise (fun p q : ℚ × ℚ => p.1 ≤ q.1) (a :: l))
    (hn : ∀ p ∈ a :: l, 0 ≤ p.2) :
    trapz l ≤ trapz (a :: l) := by
  cases l with
  | nil => simp [trapz]
  | cons b rest =>
    rw [trapz]
    have hab : a.1 ≤ b.1 := (List.pairwise_cons.1 hs).1 b (by simp)
    have ha2 : 0 ≤ a.2 := hn a (by simp)
    have hb2 : 0 ≤ b.2 := hn b (by simp)
    have hterm : 0 ≤ (b.1 - a.1) * (a.2 + b.2) / 2 :=
      div_nonneg (mul_nonneg (by linarith) (by linarith)) (by norm_num)
    linarith

theorem trapz_take_le : ∀ (s r : List (ℚ × ℚ)) (a : ℚ × ℚ),
    List.Pairwise (fun p q : ℚ × ℚ => p.1 ≤ q.1) (a :: (s ++ r)) →
    (∀ p ∈ a :: (s ++ r), 0 ≤ p.2) →
    trapz (a :: s) ≤ trapz (a :: (s ++ r)) := by
  intro s
  induction s with
  | nil =>
    intro r a hs hn
    have : trapz [a] = 0 := rfl
    rw [List.nil_append, this]
    exact trapz_nonneg (a :: r) hs hn
  | cons b s' ih =>
    intro r a hs hn
    rw [List.cons_append, trapz, trapz]
    have htail := ih r b (List.pairwise_cons.1 (by simpa using hs)).2
      (fun p hp => hn p (by simp at hp ⊢; tauto))
    have htail' : trapz (b :: s') ≤ trapz (b :: (s' ++ r)) := by
      apply ih r b
      · have := (List.pairwise_cons.1 hs).2
        simpa using this
      · intro p hp
        apply hn
        simp at hp ⊢
        tauto
    linarith

/-- On a sorted list, a mask whose failures propagate rightward past any
in-mask anchor filters a prefix-after-anchor: the filtered tail is a
`takeWhile`. -/
theorem filter_eq_takeWhile_of_anchor (P : ℚ → Bool)
    (HP : ∀ a x y : ℚ, P a = true → P x = false → a ≤ x → x ≤ y → P y = false) :
    ∀ (l : List (ℚ × ℚ)) (a : ℚ × ℚ), P a.1 = true →
      List.Pairwise (fun p q : ℚ × ℚ => p.1 ≤ q.1) (a :: l) →
      l.filter (fun p => P p.1) = l.takeWhile (fun p => P p.1) := by
  intro l
  induction l with
  | nil => intro a _ _; rfl
  | cons x xs ih =>
    intro a hPa hs
    by_cases hx : P x.1 = true
    · simp only [List.filter_cons, List.takeWhile_cons, hx, if_true]
      rw [ih x hx (List.pairwise_cons.1 hs).2]
    · have hx' : P x.1 = false := by simpa using hx
      simp only [List.filter_cons, List.takeWhile_cons, hx', Bool.false_eq_true,
        if_false]
      rw [List.filter_eq_nil_iff]
      intro y hy
      have hax : a.1 ≤ x.1 := (List.pairwise_cons.1 hs).1 x (by simp)
      have hxy : x.1 ≤ y.1 :=
        (List.pairwise_cons.1 (List.pairwise_cons.1 hs).2).1 y hy
      simp [HP a.1 x.1 y.1 hPa hx' hax hxy]

/-- Filtering a sorted, non-negative PSD list with an interval-like mask can
only reduce the trapezoidal integral. -/
theorem trapz_filter_le (P : ℚ → Bool)
    (HP : ∀ a x y : ℚ, P a = true → P x = false → a ≤ x → x ≤ y → P y = false) :
    ∀ l : List (ℚ × ℚ),
      List.Pairwise (fun p q : ℚ × ℚ => p.1 ≤ q.1) l → (∀ p ∈ l, 0 ≤ p.2) →
      trapz (l.filter (fun p => P p.1)) ≤ trapz l := by
  intro l
  induction l with
  | nil => intro _ _; simp [trapz]
  | cons a t ih =>
    intro hs hn
    by_cases ha : P a.1 = true
    · rw [List.filter_cons, if_pos ha,
        filter_eq_takeWhile_of_anchor P HP t a ha hs]
      have hsplit : t.takeWhile (fun p => P p.1) ++ t.dropWhile (fun p => P p.1) = t :=
        List.takeWhile_append_dropWhile (fun p => P p.1) t
      calc trapz (a :: t.takeWhile (fun p => P p.1))
          ≤ trapz (a :: (t.takeWhile (fun p => P p.1) ++ t.dropWhile (fun p => P p.1))) := by
            apply trapz_take_le
            · rw [hsplit]; exact hs
            · rw [hsplit]; exact hn
        _ = trapz (a :: t) := by rw [hsplit]
    · rw [List.filter_cons, if_neg ha]
      exact le_trans
        (ih (List.pairwise_cons.1 hs).2 (fun p hp => hn p (List.mem_cons_of_mem a hp)))
        (trapz_cons_le a t hs hn)

/-- The closed band mask has the anchor-propagation property needed by
`trapz_filter_le`. -/
theorem closedMask_prop (low high : ℚ) :
    ∀ a x y : ℚ, (decide (low ≤ a) && decide (a ≤ high)) = true →
      (decide (low ≤ x) && decide (x ≤ high)) = false → a ≤ x → x ≤ y →
      (decide (low ≤ y) && decide (y ≤ high)) = false := by
  intro a x y hPa hPx hax hxy
  simp only [Bool.and_eq_true, decide_eq_true_eq] at hPa
  simp only [Bool.and_eq_false_iff, decide_eq_false_iff_not] at hPx ⊢
  have hlx : low ≤ x := le_trans hPa.1 hax
  have hxh : ¬ x ≤ high := by tauto
  right
  intro hc
  exact hxh (le_trans hxy hc)

theorem bandMask_sorted (low high : ℚ) (fp : List (ℚ × ℚ))
    (hsort : List.Pairwise (fun p q : ℚ × ℚ => p.1 ≤ q.1) fp) :
    List.Pairwise (fun p q : ℚ × ℚ => p.1 ≤ q.1) (bandMask low high fp) :=
  List.Pairwise.sublist (List.filter_sublist fp) hsort

theorem bandMask_nonneg (low high : ℚ) (fp : List (ℚ × ℚ))
    (hpsd : ∀ p ∈ fp, 0 ≤ p.2) :
    ∀ p ∈ bandMask low high fp, 0 ≤ p.2 :=
  fun p hp => hpsd p (List.mem_of_mem_filter hp)

/-- Band containment turns the band mask into a further filtering of the
total-range mask. -/
theorem bandMask_filter_of_subset (low high tlow thigh : ℚ) (fp : List (ℚ × ℚ))
    (hlo : tlow ≤ low) (hhi : high ≤ thigh) :
    (bandMask tlow thigh fp).filter
        (fun p => decide (low ≤ p.1) && decide (p.1 ≤ high)) =
      bandMask low high fp := by
  unfold bandMask
  rw [List.filter_filter]
  apply List.filter_congr
  intro p _
  by_cases h1 : low ≤ p.1
  · by_cases h2 : p.1 ≤ high
    · have h3 : tlow ≤ p.1 := le_trans hlo h1
      have h4 : p.1 ≤ thigh := le_trans h2 hhi
      simp [h1, h2, h3, h4]
    · simp [h2]
  · simp [h1]

/-- C6: `calculate_relative_power` returns exactly 0 when the total power over
`total_range` is zero; and whenever the total power is positive and the band
`[low, high]` is contained in the total range, the ratio lies in `[0, 1]`
(hence certainly below `1 + 1e-6`), for every Welch estimate with ascending
frequencies and non-negative PSD values. -/
theorem relative_power_guard_and_bound (low high tlow thigh : ℚ)
    (fp : List (ℚ × ℚ))
    (hsort : List.Pairwise (fun p q : ℚ × ℚ => p.1 ≤ q.1) fp)
    (hpsd : ∀ p ∈ fp, 0 ≤ p.2) :
    (trapz (bandMask tlow thigh fp) = 0 →
      calculate_relative_power low high tlow thigh fp = 0) ∧
    (0 < trapz (bandMask tlow thigh fp) → tlow ≤ low → high ≤ thigh →
      0 ≤ calculate_relative_power low high tlow thigh fp ∧
        calculate_relative_power low high tlow thigh fp ≤ 1 + 1/1000000) := by
  constructor
  · intro h0
    unfold calculate_relative_power
    rw [h0]
    simp
  · intro hT hlo hhi
    have hle : trapz (bandMask low high fp) ≤ trapz (bandMask tlow thigh fp) := by
      rw [← bandMask_filter_of_subset low high tlow thigh fp hlo hhi]
      exact trapz_filter_le _ (closedMask_prop low high) _
        (bandMask_sorted tlow thigh fp hsort) (bandMask_nonneg tlow thigh fp hpsd)
    have h0 : 0 ≤ trapz (bandMask low high fp) :=
      trapz_nonneg _ (bandMask_sorted low high fp hsort)
        (bandMask_nonneg low high fp hpsd)
    unfold calculate_relative_power calculate_band_power
    rw [if_pos hT]
    refine ⟨div_nonneg h0 (le_of_lt hT), ?_⟩
    have hdiv : trapz (bandMask low high fp) / trapz (bandMask tlow thigh fp) ≤ 1 :=
      (div_le_one hT).2 hle
    linarith

theorem relative_power_witness :
    List.Pairwise (fun p q : ℚ × ℚ => p.1 ≤ q.1) [((1 : ℚ), (2 : ℚ)), (3, 4)] ∧
    (∀ p ∈ [((1 : ℚ), (2 : ℚ)), (3, 4)], 0 ≤ p.2) ∧
    ((trapz (bandMask (1/2) 40 [((1 : ℚ), (2 : ℚ)), (3, 4)]) = 0 →
        calculate_relative_power 1 3 (1/2) 40 [((1 : ℚ), (2 : ℚ)), (3, 4)] = 0) ∧
      (0 < trapz (bandMask (1/2) 40 [((1 : ℚ), (2 : ℚ)), (3, 4)]) →
        (1/2 : ℚ) ≤ 1 → (3 : ℚ) ≤ 40 →
        0 ≤ calculate_relative_power 1 3 (1/2) 40 [((1 : ℚ), (2 : ℚ)), (3, 4)] ∧
          calculate_relative_power 1 3 (1/2) 40 [((1 : ℚ), (2 : ℚ)), (3, 4)] ≤
            1 + 1/1000000)) :=
  ⟨by norm_num [List.pairwise_cons], by norm_num,
    relative_power_guard_and_bound 1 3 (1/2) 40 [((1 : ℚ), (2 : ℚ)), (3, 4)]
      (by norm_num [List.pairwise_cons]) (by norm_num)⟩

/-- C7 (amended): the source's band mask is the closed interval
`low ≤ f ≤ high` (`(freqs >= low_freq) & (freqs <= high_freq)`), not the
half-open `[low, high)` interval the spec names: a bin centred exactly at
`high_hz` is included, so the source's band power dominates the half-open
integral on every sorted non-negative PSD estimate. -/
theorem band_power_closed_dominates_halfopen (low high : ℚ) (fp : List (ℚ × ℚ))
    (hsort : List.Pairwise (fun p q : ℚ × ℚ => p.1 ≤ q.1) fp)
    (hpsd : ∀ p ∈ fp, 0 ≤ p.2) :
    band_power_spec low high fp ≤ calculate_band_power low high fp := by
  have heq : (bandMask low high fp).filter (fun p => decide (p.1 < high)) =
      fp.filter (fun p => decide (low ≤ p.1) && decide (p.1 < high)) := by
    unfold bandMask
    rw [List.filter_filter]
    apply List.filter_congr
    intro p _
    by_cases h1 : low ≤ p.1
    · by_cases h2 : p.1 < high
      · have h3 : p.1 ≤ high := le_of_lt h2
        simp [h1, h2, h3]
      · simp [h1, h2]
    · simp [h1]
  unfold band_power_spec calculate_band_power
  rw [← heq]
  apply trapz_filter_le (fun f => decide (f < high)) ?_ _
    (bandMask_sorted low high fp hsort) (bandMask_nonneg low high fp hpsd)
  intro a x y _ hPx hax hxy
  simp only [decide_eq_false_iff_not, not_lt] at hPx ⊢
  exact le_trans hPx hxy

theorem band_power_closed_witness :
    List.Pairwise (fun p q : ℚ × ℚ => p.1 ≤ q.1) [((12 : ℚ), (1 : ℚ)), (13, 1)] ∧
    (∀ p ∈ [((12 : ℚ), (1 : ℚ)), (13, 1)], 0 ≤ p.2) ∧
    band_power_spec 8 13 [((12 : ℚ), (1 : ℚ)), (13, 1)] ≤
      calculate_band_power 8 13 [((12 : ℚ), (1 : ℚ)), (13, 1)] :=
  ⟨by norm_num [List.pairwise_cons], by norm_num,
    band_power_closed_dominates_halfopen 8 13 [((12 : ℚ), (1 : ℚ)), (13, 1)]
      (by norm_num [List.pairwise_cons]) (by norm_num)⟩

/-- C7 counterexample: a PSD estimate with bins centred at 12 Hz and 13 Hz and
the band `[8, 13)`. The claim says the bin at exactly `high_hz = 13`
contributes nothing, so the band power would be the half-open integral `0`;
the source's closed mask keeps the 13 Hz bin and integrates `1`. -/
theorem band_edge_bin_counterexample :
    calculate_band_power 8 13 [((12 : ℚ), (1 : ℚ)), (13, 1)] = 1 ∧
      band_power_spec 8 13 [((12 : ℚ), (1 : ℚ)), (13, 1)] = 0 ∧
      calculate_band_power 8 13 [((12 : ℚ), (1 : ℚ)), (13, 1)] ≠
        band_power_spec 8 13 [((12 : ℚ), (1 : ℚ)), (13, 1)] := by
  refine ⟨?_, ?_, ?_⟩ <;>
    norm_num [calculate_band_power, band_power_spec, bandMask, List.filter_cons,
      trapz]

/-- C8: the sliding-window pass computes exactly the windows `[k·s, k·s + w)`
that lie fully inside the signal — `⌊(n-w)/s⌋ + 1` of them when `n ≥ w` — with
the trailing partial window dropped; the series is empty when the signal is
shorter than the window, and empty (via the caught `ValueError`) when the step
is zero samples. -/
theorem power_over_time_window_layout (data : List ℚ) (w step : ℕ)
    (bp : List ℚ → ℚ) (_hw : 1 ≤ w) :
    (step = 0 → calculate_power_over_time data w step bp = []) ∧
    (data.length < w → calculate_power_over_time data w step bp = []) ∧
    (0 < step → w ≤ data.length →
      (calculate_power_over_time data w step bp).length
          = (data.length - w) / step + 1 ∧
      ∀ k, k < (data.length - w) / step + 1 →
        k * step + w ≤ data.length ∧
        (calculate_power_over_time data w step bp)[k]? =
          some (bp ((data.drop (k * step)).take w)) ∧
        ((data.drop (k * step)).take w).length = w) := by
  refine ⟨?_, ?_, ?_⟩
  · intro h0
    unfold calculate_power_over_time windowStarts
    rw [if_pos (Or.inl h0)]
    rfl
  · intro hlt
    unfold calculate_power_over_time windowStarts
    rw [if_pos (Or.inr hlt)]
    rfl
  · intro hstep hwn
    have hcond : ¬ (step = 0 ∨ data.length < w) := by omega
    refine ⟨?_, ?_⟩
    · unfold calculate_power_over_time windowStarts
      rw [if_neg hcond]
      simp
    · intro k hk
      have hks : k * step ≤ data.length - w := by
        have hk' : k ≤ (data.length - w) / step := by omega
        calc k * step ≤ ((data.length - w) / step) * step :=
              Nat.mul_le_mul_right step hk'
          _ ≤ data.length - w := Nat.div_mul_le_self _ _
      refine ⟨by omega, ?_, ?_⟩
      · unfold calculate_power_over_time windowStarts
        rw [if_neg hcond]
        rw [List.getElem?_map, List.getElem?_map, List.getElem?_range hk]
        rfl
      · rw [List.length_take, List.length_drop]
        omega

theorem power_over_time_witness :
    1 ≤ 2 ∧
    (((2 : ℕ) = 0 → calculate_power_over_time [1, 2, 3, 4, 5] 2 2 List.sum = []) ∧
      ((5 : ℕ) < 2 → calculate_power_over_time [1, 2, 3, 4, 5] 2 2 List.sum = []) ∧
      (0 < 2 → 2 ≤ 5 →
        (calculate_power_over_time [1, 2, 3, 4, 5] 2 2 List.sum).length
            = (5 - 2) / 2 + 1 ∧
        ∀ k, k < (5 - 2) / 2 + 1 →
          k * 2 + 2 ≤ 5 ∧
          (calculate_power_over_time [1, 2, 3, 4, 5] 2 2 List.sum)[k]? =
            some (List.sum ((([1, 2, 3, 4, 5] : List ℚ).drop (k * 2)).take 2)) ∧
          ((([1, 2, 3, 4, 5] : List ℚ).drop (k * 2)).take 2).length = 2)) := by
  constructor
  · norm_num
  · have h := power_over_time_window_layout [1, 2, 3, 4, 5] 2 2 List.sum
      (by norm_num)
    simpa using h

/-- C3 (amended): the reported time of window `k` is
`times[k·step + ⌊w/2⌋]`, which equals the window midpoint exactly when
`window_samples` is even (the GUI's fixed parameters — 2.0 s windows at
integer sampling rates — give an even `w`); the times are absolute recording
times. For odd `w` the report is half a sample interval before the midpoint
(see `reported_time_not_midpoint_for_odd_window`). -/
theorem reported_times_are_window_midpoints (n w step : ℕ) (sfreq : ℚ)
    (hw : w % 2 = 0) :
    reportedWindowTimes n w step sfreq =
      (List.range (windowStarts n w step).length).map (windowMidpoint w step sfreq) := by
  obtain ⟨m, hm⟩ : ∃ m, w = 2 * m := ⟨w / 2, by omega⟩
  unfold reportedWindowTimes windowStarts windowMidpoint
  by_cases hcond : step = 0 ∨ n < w
  · rw [if_pos hcond]
    rfl
  · rw [if_neg hcond]
    rw [List.map_map, List.length_map, List.length_range]
    apply List.map_congr_left
    intro k _
    simp only [Function.comp_apply]
    subst hm
    have h2 : ((2 * m / 2 : ℕ) : ℚ) = (2 * m : ℚ) / 2 := by
      push_cast [Nat.mul_div_cancel_left m (by norm_num : 0 < 2)]
      ring
    push_cast
    rw [add_div]
    congr 1
    rw [h2, div_div]

theorem reported_times_midpoint_witness :
    (4 : ℕ) % 2 = 0 ∧
      reportedWindowTimes 10 4 2 5 =
        (List.range (windowStarts 10 4 2).length).map (windowMidpoint 4 2 5) :=
  ⟨by norm_num, reported_times_are_window_midpoints 10 4 2 5 (by norm_num)⟩

/-- C3 counterexample: a 1.0 s window at 5 Hz gives `window_samples = 5`
(odd); the first window spans samples `[0, 5)`, i.e. the time interval
`[0 s, 1 s)`, whose midpoint is `0.5 s`, but the source reports
`times[0 + 5 // 2] = times[2] = 0.4 s`. -/
theorem reported_time_not_midpoint_for_odd_window :
    (reportedWindowTimes 10 5 5 5)[0]? = some (2/5) ∧
      windowMidpoint 5 5 5 0 = 1/2 ∧
      (reportedWindowTimes 10 5 5 5)[0]? ≠ some (windowMidpoint 5 5 5 0) := by
  refine ⟨?_, ?_, ?_⟩ <;>
    norm_num [reportedWindowTimes, windowStarts, windowMidpoint, List.range_succ]

theorem foldl_max_map (f : ℚ → ℚ)
    (hf : ∀ a b : ℚ, f (max a b) = max (f a) (f b)) :
    ∀ (l : List ℚ) (x : ℚ), (l.map f).foldl max (f x) = f (l.foldl max x) := by
  intro l
  induction l with
  | nil => intro x; rfl
  | cons y ys ih =>
    intro x
    simp only [List.map_cons, List.foldl_cons]
    rw [← hf, ih]

theorem foldl_min_map (f : ℚ → ℚ)
    (hf : ∀ a b : ℚ, f (min a b) = min (f a) (f b)) :
    ∀ (l : List ℚ) (x : ℚ), (l.map f).foldl min (f x) = f (l.foldl min x) := by
  intro l
  induction l with
  | nil => intro x; rfl
  | cons y ys ih =>
    intro x
    simp only [List.map_cons, List.foldl_cons]
    rw [← hf, ih]

theorem listMin_map_affine (l : List ℚ) (hne : l ≠ []) (f : ℚ → ℚ)
    (hf : ∀ a b : ℚ, f (min a b) = min (f a) (f b)) :
    listMin (l.map f) = f (listMin l) := by
  obtain ⟨x, xs, rfl⟩ := List.exists_cons_of_ne_nil hne
  show (xs.map f).foldl min (f x) = f (xs.foldl min x)
  exact foldl_min_map f hf xs x

theorem listMax_map_affine (l : List ℚ) (hne : l ≠ []) (f : ℚ → ℚ)
    (hf : ∀ a b : ℚ, f (max a b) = max (f a) (f b)) :
    listMax (l.map f) = f (listMax l) := by
  obtain ⟨x, xs, rfl⟩ := List.exists_cons_of_ne_nil hne
  show (xs.map f).foldl max (f x) = f (xs.foldl max x)
  exact foldl_max_map f hf xs x

/-- C9: for a non-empty band series, min-max normalization yields a series
whose minimum is exactly 0 and whose maximum is exactly 1 whenever the series
is non-constant; a constant series (`max = min`) is returned unchanged. -/
theorem all_bands_normalization (l : List ℚ) (hne : l ≠ []) :
    (listMin l < listMax l →
      listMin (normalize_series l) = 0 ∧ listMax (normalize_series l) = 1) ∧
    (¬ listMin l < listMax l → normalize_series l = l) := by
  constructor
  · intro hlt
    have hD : 0 < listMax l - listMin l := by linarith
    have hD' : listMax l - listMin l ≠ 0 := ne_of_gt hD
    have hfmin : ∀ a b : ℚ,
        (min a b - listMin l) / (listMax l - listMin l) =
          min ((a - listMin l) / (listMax l - listMin l))
            ((b - listMin l) / (listMax l - listMin l)) := by
      intro a b
      rcases le_total a b with h | h
      · rw [min_eq_left h, min_eq_left]
        gcongr
      · rw [min_eq_right h, min_eq_right]
        gcongr
    have hfmax : ∀ a b : ℚ,
        (max a b - listMin l) / (listMax l - listMin l) =
          max ((a - listMin l) / (listMax l - listMin l))
            ((b - listMin l) / (listMax l - listMin l)) := by
      intro a b
      rcases le_total a b with h | h
      · rw [max_eq_right h, max_eq_right]
        gcongr
      · rw [max_eq_left h, max_eq_left]
        gcongr
    unfold normalize_series
    rw [if_pos hlt]
    constructor
    · rw [listMin_map_affine l hne
        (fun y => (y - listMin l) / (listMax l - listMin l)) hfmin]
      show (listMin l - listMin l) / (listMax l - listMin l) = 0
      rw [sub_self, zero_div]
    · rw [listMax_map_affine l hne
        (fun y => (y - listMin l) / (listMax l - listMin l)) hfmax]
      show (listMax l - listMin l) / (listMax l - listMin l) = 1
      rw [div_self hD']
  · intro hge
    unfold normalize_series
    rw [if_neg hge]

theorem all_bands_normalization_witness :
    ([(1 : ℚ), 3] ≠ []) ∧
      ((listMin [(1 : ℚ), 3] < listMax [(1 : ℚ), 3] →
        listMin (normalize_series [(1 : ℚ), 3]) = 0 ∧
          listMax (normalize_series [(1 : ℚ), 3]) = 1) ∧
      (¬ listMin [(1 : ℚ), 3] < listMax [(1 : ℚ), 3] →
        normalize_series [(1 : ℚ), 3] = [(1 : ℚ), 3])) :=
  ⟨by simp, all_bands_normalization [(1 : ℚ), 3] (by simp)⟩

theorem natFloorRoot_pow (k s : ℕ) (hk : k ≠ 0) : natFloorRoot k (s ^ k) = s := by
  unfold natFloorRoot
  rw [Nat.findGreatest_eq_iff]
  refine ⟨Nat.le_self_pow hk s, fun _ => le_refl (s ^ k), ?_⟩
  intro n hsn _
  simp only [not_le]
  exact Nat.pow_lt_pow_left hsn hk

theorem genScales_length (s0 s1 n : ℕ) : (genScales s0 s1 n).length = n := by
  unfold genScales
  split
  · exact List.length_replicate n s0
  · rw [List.length_map, List.length_range]

theorem genScales_two (s0 s1 : ℕ) : genScales s0 s1 2 = [s0, s1] := by
  unfold genScales
  rw [if_neg (by norm_num)]
  have hr : List.range 2 = [0, 1] := rfl
  rw [hr]
  have h0 : s0 ^ (2 - 1 - 0) * s1 ^ 0 = s0 ^ 1 := by norm_num
  have h1 : s0 ^ (2 - 1 - 1) * s1 ^ 1 = s1 ^ 1 := by norm_num
  simp only [List.map_cons, List.map_nil, h0, h1,
    natFloorRoot_pow 1 s0 one_ne_zero, natFloorRoot_pow 1 s1 one_ne_zero]

/-- C2 (amended): the source takes the fitted-slope branch iff strictly more
than two valid (scale, positive-fluctuation) pairs survive the filter
(`len(scales) > 2`); with two or fewer — in particular with exactly two —
`alpha` is NaN. -/
theorem dfa_nan_iff_at_most_two_valid (data : List ℚ) (s0 s1 n : ℕ) :
    (calculate_dfa_direct data s0 s1 n).alphaIsNaN = false ↔
      2 < ((genScales s0 s1 n).filter
        (fun s => decide (0 < flucSquared (integrate data) s))).length := by
  unfold calculate_dfa_direct
  simp only [Bool.not_eq_false', decide_eq_true_eq]
  rw [List.filter_map, List.length_map]
  have hpred : ((fun p : ℕ × ℚ => decide (0 < p.2)) ∘ fun s : ℕ =>
      (s, flucSquared (integrate data) s)) =
      fun s : ℕ => decide (0 < flucSquared (integrate data) s) := rfl
  rw [hpred]

/-- C1 (amended): `calculate_dfa_direct` performs no structural parameter
validation: even for invalid parameters (scale floor violated, inverted
bounds, or fewer than two scales) the call is not rejected — scale generation
still produces `n_scales` scales and the returned result is the normally
computed one: its scale list is exactly the positive-fluctuation filter of the
generated scales, and every reported (squared) fluctuation is positive. The
only guards in the source sit outside this function (the GUI spinbox ranges
and `calculate_dfa`'s 100-sample data check). -/
theorem dfa_no_parameter_validation (data : List ℚ) (s0 s1 n : ℕ)
    (_hinvalid : s0 < 4 ∨ s1 ≤ s0 ∨ n < 2) :
    (genScales s0 s1 n).length = n ∧
    (calculate_dfa_direct data s0 s1 n).scales =
      (genScales s0 s1 n).filter
        (fun s => decide (0 < flucSquared (integrate data) s)) ∧
    ∀ q ∈ (calculate_dfa_direct data s0 s1 n).flucSq, 0 < q := by
  refine ⟨genScales_length s0 s1 n, ?_, ?_⟩
  · unfold calculate_dfa_direct
    rw [List.filter_map, List.map_map]
    have hpred : ((fun p : ℕ × ℚ => decide (0 < p.2)) ∘ fun s : ℕ =>
        (s, flucSquared (integrate data) s)) =
        fun s : ℕ => decide (0 < flucSquared (integrate data) s) := rfl
    have hfst : (Prod.fst ∘ fun s : ℕ => (s, flucSquared (integrate data) s)) =
        fun s : ℕ => s := rfl
    rw [hpred, hfst, List.map_id']
  · intro q hq
    unfold calculate_dfa_direct at hq
    simp only [List.mem_map] at hq
    obtain ⟨p, hp, rfl⟩ := hq
    have := (List.mem_filter.1 hp).2
    simpa using this

theorem dfa_no_validation_witness :
    ((2 : ℕ) < 4 ∨ (2 : ℕ) ≤ 2 ∨ (1 : ℕ) < 2) ∧
      ((genScales 2 2 1).length = 1 ∧
        (calculate_dfa_direct [] 2 2 1).scales =
          (genScales 2 2 1).filter
            (fun s => decide (0 < flucSquared (integrate []) s)) ∧
        ∀ q ∈ (calculate_dfa_direct [] 2 2 1).flucSq, 0 < q) :=
  ⟨by norm_num, dfa_no_parameter_validation [] 2 2 1 (by norm_num)⟩

theorem flucSquared_dfaData_four : flucSquared (integrate dfaData) 4 = 1/20 := by
  norm_num [flucSquared, integrate, cumsum, mean, dfaData, lsResid, lsSlope,
    lsIntercept, List.range_succ]

theorem flucSquared_dfaData_ten : flucSquared (integrate dfaData) 10 = 2/33 := by
  norm_num [flucSquared, integrate, cumsum, mean, dfaData, lsResid, lsSlope,
    lsIntercept, List.range_succ]

/-- C2 counterexample: on the 20-sample alternating signal with
`min_scale = 4, max_scale = 10, n_scales = 2`, both generated scales survive
the positivity filter — exactly two valid (scale, fluctuation) pairs — yet the
source takes the `alpha = np.nan` branch (`len(scales) > 2` fails), where the
claim promises a fitted slope for exactly two pairs. -/
theorem dfa_two_valid_pairs_yield_nan :
    (calculate_dfa_direct dfaData 4 10 2).scales = [4, 10] ∧
      (calculate_dfa_direct dfaData 4 10 2).alphaIsNaN = true := by
  unfold calculate_dfa_direct
  rw [genScales_two]
  refine ⟨?_, ?_⟩ <;>
    norm_num [flucSquared_dfaData_four, flucSquared_dfaData_ten, List.filter_cons]

/-- C1 counterexample: `min_scale = 10 > max_scale = 4` is structurally
invalid (inverted bounds), yet `calculate_dfa_direct` rejects nothing: it
integrates the signal, generates the decreasing scale list `[10, 4]`, computes
both fluctuations (`2/33` and `1/20`, positive, so both pairs are kept) and
returns a normal result — there is no failure signal and computation plainly
took place. -/
theorem dfa_inverted_bounds_not_rejected :
    (4 : ℕ) ≤ 10 ∧
      (calculate_dfa_direct dfaData 10 4 2).scales = [10, 4] ∧
      (calculate_dfa_direct dfaData 10 4 2).flucSq = [2/33, 1/20] ∧
      (calculate_dfa_direct dfaData 10 4 2).scales ≠ [] := by
  have hsc : (calculate_dfa_direct dfaData 10 4 2).scales = [10, 4] := by
    unfold calculate_dfa_direct
    rw [genScales_two]
    norm_num [flucSquared_dfaData_four, flucSquared_dfaData_ten, List.filter_cons]
  refine ⟨by norm_num, hsc, ?_, by rw [hsc]; simp⟩
  unfold calculate_dfa_direct
  rw [genScales_two]
  norm_num [flucSquared_dfaData_four, flucSquared_dfaData_ten, List.filter_cons]

end Eegan
